import Mathlib

/-!
Shallow embedding of `threaded_rng_cache` (src/include/threaded_rng_cache.hpp).

The C++ header defines `RngCache<DistributionT, EngineT, CHUNK_SIZE>` with three
nested components: `Chunk` (a fixed-capacity buffer with a consumption cursor),
`Producer` (a worker owning an engine, a distribution copy and a chunk, filled
by a background thread), and the facade (`generate`, `nextProducer`,
`randomSeed`, constructors).

Embedding choices:
* `α` is `result_type`, `σ` is the engine state, `δ` is the (possibly stateful)
  distribution state, `Sd` is `seed_type` (the engine's result type).
* `m_distribution(m_engine)` is an abstract step `step : δ → σ → α × δ × σ`;
  a raw engine draw `EngineT::operator()` is `engNext : σ → Sd × σ`; engine
  construction from a seed is `seedEngine : Sd → σ`.
* The background thread of each producer is modelled by `Producer.fillStep`
  (one productive iteration of `Producer::run`), and thread scheduling by an
  explicit schedule: before each consumer step an arbitrary list of producers
  gets to run their fill loop; `swapChunk`'s blocking wait is modelled by
  letting the target producer run its fill loop before the swap and by
  requiring the wait condition to hold (a permanent block is an error value).
* C++ undefined behaviour (indexing an empty pool, `next()` on an empty chunk)
  is modelled by distinguished error values.
-/

namespace ThreadedRngCache

/-- One-at-a-time stateful generation: `genList gen n s` performs `n` draws in
order, returning the drawn values (index `0` drawn first) and the final state.
This models `std::ranges::generate` over a range of `n` slots with a stateful
generator. -/
def genList {St α : Type} (gen : St → α × St) : Nat → St → List α × St
  | 0, s => ([], s)
  | n + 1, s =>
    let r := gen s
    let rest := genList gen n r.2
    (r.1 :: rest.1, rest.2)

/-- The value of the `m`-th draw (0-based) from state `s`. -/
def nthOut {St α : Type} (gen : St → α × St) (s : St) : Nat → α
  | 0 => (gen s).1
  | m + 1 => nthOut gen (gen s).2 m

/-- The state after `n` draws from state `s`. -/
def iterState {St α : Type} (gen : St → α × St) (s : St) : Nat → St
  | 0 => s
  | n + 1 => iterState gen (gen s).2 n

/-- Embeds the nested class `RngCache::Chunk`: `m_nextIndex` cursor plus the
backing storage `m_values` (a `std::array` of size `CHUNK_SIZE`; here a list
whose length plays the role of the capacity). -/
structure Chunk (α : Type) where
  nextIndex : Nat
  values : List α
  deriving Repr, DecidableEq

namespace Chunk

/-- `Chunk::Chunk()`: cursor at `CHUNK_SIZE` (so the chunk starts empty) and
value-initialized storage of `CHUNK_SIZE` elements. -/
def init {α : Type} (C : Nat) (dflt : α) : Chunk α :=
  { nextIndex := C, values := List.replicate C dflt }

/-- `Chunk::empty()`: `m_nextIndex == m_values.size()`. -/
def empty {α : Type} (c : Chunk α) : Bool :=
  c.nextIndex == c.values.length

/-- `Chunk::full()`: `m_nextIndex == 0`. -/
def full {α : Type} (c : Chunk α) : Bool :=
  c.nextIndex == 0

/-- `Chunk::next()`: `assert(!empty()); return m_values[m_nextIndex++];`.
The out-of-bounds case (the assertion/UB case) is `none`. -/
def next {α : Type} (c : Chunk α) : Option (α × Chunk α) :=
  if h : c.nextIndex < c.values.length then
    some (c.values[c.nextIndex], { c with nextIndex := c.nextIndex + 1 })
  else
    none

/-- `Chunk::fill(generator)`: `std::ranges::generate(m_values, generator)`
draws once per slot in index order, then `m_nextIndex = 0`. The stateful
generator is threaded explicitly. -/
def fill {α St : Type} (c : Chunk α) (gen : St → α × St) (s : St) : Chunk α × St :=
  let r := genList gen c.values.length s
  ({ nextIndex := 0, values := r.1 }, r.2)

/-- Repeated `next()`: `n` consecutive calls, collecting the returned values.
`none` as soon as one call hits the empty-chunk assertion. -/
def nextN {α : Type} (c : Chunk α) : Nat → Option (List α × Chunk α)
  | 0 => some ([], c)
  | n + 1 =>
    match c.next with
    | none => none
    | some (v, c') => (c'.nextN n).map (fun r => (v :: r.1, r.2))

end Chunk

/-- Embeds `RngCache::Producer`: shutdown flag, owned chunk, distribution copy
and engine. The `std::thread` member is represented by the explicit scheduling
of `fillStep` (below); the mutex/condition pair is represented by the
wait-condition predicates. -/
structure Producer (σ δ α : Type) where
  shutdown : Bool
  chunk : Chunk α
  dist : δ
  engine : σ
  deriving Repr, DecidableEq

/-- The exact message of the `std::logic_error` thrown by `swapChunk`. -/
def illegalAccessMsg : String :=
  "threaded_rng_cache::RngCache: Illegal access of closed instance."

namespace Producer

/-- `Producer::swapWaitCondition()`: `m_shutdown || m_chunk->full()`. -/
def swapWaitCondition {σ δ α : Type} (p : Producer σ δ α) : Bool :=
  p.shutdown || p.chunk.full

/-- `Producer::fillWaitCondition()`: `m_shutdown || m_chunk->empty()`. -/
def fillWaitCondition {σ δ α : Type} (p : Producer σ δ α) : Bool :=
  p.shutdown || p.chunk.empty

/-- The body of `Producer::swapChunk` after the wait has been satisfied:
if shutdown was observed, throw (state untouched, mirroring the C++ `throw`
before the `std::swap`); otherwise exchange the producer's chunk with the
caller's chunk. Returns (outcome, producer state, caller's chunk). -/
def swapChunk {σ δ α : Type} (p : Producer σ δ α) (other : Chunk α) :
    Except String Unit × Producer σ δ α × Chunk α :=
  if p.shutdown then
    (Except.error illegalAccessMsg, p, other)
  else
    (Except.ok (), { p with chunk := other }, p.chunk)

/-- One productive iteration of the background loop `Producer::run()`: the
thread waits for `fillWaitCondition`; on shutdown it exits (no state change
here), otherwise — i.e. when its chunk is empty — it fills the chunk via
`m_chunk->fill([this](){ return generate(); })` where `generate()` is
`m_distribution(m_engine)`. When the chunk is neither empty nor shut down the
thread stays blocked, so the state is unchanged. -/
def fillStep {σ δ α : Type} (step : δ → σ → α × δ × σ) (p : Producer σ δ α) :
    Producer σ δ α :=
  if p.shutdown then p
  else if p.chunk.empty then
    let r := p.chunk.fill (fun st => step st.1 st.2) (p.dist, p.engine)
    { p with chunk := r.1, dist := r.2.1, engine := r.2.2 }
  else p

end Producer

/-- The state of the root engine after `i` raw draws (`EngineT rootEngine{seed}`
followed by `i` calls of `rootEngine()`). -/
def rootIter {σ Sd : Type} (engNext : σ → Sd × σ) (e : σ) : Nat → σ
  | 0 => e
  | i + 1 => rootIter engNext (engNext e).2 i

/-- The `i`-th sequential raw draw from a root engine in state `e`
(the `childSeed` handed to the `i`-th producer in `Producer::create`). -/
def childSeed {σ Sd : Type} (engNext : σ → Sd × σ) (e : σ) (i : Nat) : Sd :=
  (engNext (rootIter engNext e i)).1

namespace Producer

/-- Helper for `create`: builds `n` producers, the first receiving the first
draw from the root engine state `e`, mirroring `std::ranges::generate` which
assigns the vector's elements in index order. -/
def createAux {σ δ α Sd : Type} (C : Nat) (dflt : α) (engNext : σ → Sd × σ)
    (seedEngine : Sd → σ) (d : δ) (e : σ) : Nat → List (Producer σ δ α)
  | 0 => []
  | n + 1 =>
    let r := engNext e
    { shutdown := false, chunk := Chunk.init C dflt, dist := d,
      engine := seedEngine r.1 } :: createAux C dflt engNext seedEngine d r.2 n

/-- `Producer::create(distribution, seed, count)`: builds the root engine from
`seed` and creates `count` producers, each seeded with the next sequential raw
draw of the root engine. -/
def create {σ δ α Sd : Type} (C : Nat) (dflt : α) (engNext : σ → Sd × σ)
    (seedEngine : Sd → σ) (d : δ) (seed : Sd) (count : Nat) :
    List (Producer σ δ α) :=
  createAux C dflt engNext seedEngine d (seedEngine seed) count

end Producer

/-- Embeds the facade `RngCache`: the active chunk, the producer vector and
the round-robin iterator `m_nextProducer` (as an index). -/
structure RngCache (σ δ α : Type) where
  activeChunk : Chunk α
  producers : List (Producer σ δ α)
  nextProducer : Nat
  deriving Repr, DecidableEq

/-- Apply `f` to the element at index `i` (identity when out of range). -/
def modifyAt {β : Type} (f : β → β) : List β → Nat → List β
  | [], _ => []
  | x :: xs, 0 => f x :: xs
  | x :: xs, n + 1 => x :: modifyAt f xs n

namespace RngCache

/-- The private constructor `RngCache(distribution, seed, threadCount)`:
fresh empty active chunk, `Producer::create`, iterator at the first producer. -/
def init {σ δ α Sd : Type} (C : Nat) (dflt : α) (engNext : σ → Sd × σ)
    (seedEngine : Sd → σ) (d : δ) (seed : Sd) (count : Nat) : RngCache σ δ α :=
  { activeChunk := Chunk.init C dflt
    producers := Producer.create C dflt engNext seedEngine d seed count
    nextProducer := 0 }

/-- The public constructor: `seed ? *seed : randomSeed()` and
`threadCount ? *threadCount : std::thread::hardware_concurrency()`.
`entropySeed` stands for the `randomSeed()` result and `hw` for the
`hardware_concurrency()` result; neither is clamped or validated. -/
def initOpt {σ δ α Sd : Type} (C : Nat) (dflt : α) (engNext : σ → Sd × σ)
    (seedEngine : Sd → σ) (d : δ) (seed? : Option Sd) (entropySeed : Sd)
    (threadCount? : Option Nat) (hw : Nat) : RngCache σ δ α :=
  init C dflt engNext seedEngine d (seed?.getD entropySeed) (threadCount?.getD hw)

/-- `RngCache::generate()`. The fast path pops from the active chunk.
On the slow path `nextProducer()` picks `m_producers[m_nextProducer]` and
advances the iterator with wraparound; the producer's background thread is
given the opportunity to complete its pending fill (`fillStep`), the blocking
wait of `swapChunk` is required to be satisfiable (otherwise the C++ code
blocks forever, an error value here), and the chunks are exchanged.
Dereferencing the iterator of an empty producer vector is C++ UB, an error
value here; so is the assertion inside `next()`. -/
def generate {σ δ α : Type} (step : δ → σ → α × δ × σ) (s : RngCache σ δ α) :
    Except String (α × RngCache σ δ α) :=
  if s.activeChunk.empty then
    match s.producers[s.nextProducer]? with
    | none => Except.error "undefined behaviour: empty producer pool"
    | some p =>
      let nextIdx := if s.nextProducer + 1 == s.producers.length then 0
                     else s.nextProducer + 1
      let p₁ := Producer.fillStep step p
      if p₁.swapWaitCondition then
        match p₁.swapChunk s.activeChunk with
        | (Except.error e, _, _) => Except.error e
        | (Except.ok (), p₂, newActive) =>
          match newActive.next with
          | none => Except.error "assertion failed: next() on empty chunk"
          | some (v, c') =>
            Except.ok (v, { activeChunk := c'
                            producers := s.producers.set s.nextProducer p₂
                            nextProducer := nextIdx })
      else
        Except.error "blocked forever: swap wait condition never satisfied"
  else
    match s.activeChunk.next with
    | none => Except.error "assertion failed: next() on empty chunk"
    | some (v, c') => Except.ok (v, { s with activeChunk := c' })

/-- Let the background threads listed in `ids` each run one iteration of
their fill loop (in that order). -/
def runProducers {σ δ α : Type} (step : δ → σ → α × δ × σ) (s : RngCache σ δ α)
    (ids : List Nat) : RngCache σ δ α :=
  { s with producers := ids.foldl (fun ps i => modifyAt (Producer.fillStep step) ps i) s.producers }

/-- `n` consecutive `generate()` calls starting at consumer step `t`, under the
thread schedule `sched` (at step `t` the producers `sched t` run their fill
loops before the consumer acts). Returns the values in order plus the final
state. -/
def consumeN {σ δ α : Type} (step : δ → σ → α × δ × σ) (sched : Nat → List Nat) :
    Nat → Nat → RngCache σ δ α → Except String (List α × RngCache σ δ α)
  | _, 0, s => Except.ok ([], s)
  | t, n + 1, s =>
    let s₁ := runProducers step s (sched t)
    match generate step s₁ with
    | Except.error e => Except.error e
    | Except.ok (v, s₂) =>
      match consumeN step sched (t + 1) n s₂ with
      | Except.error e => Except.error e
      | Except.ok (vs, s₃) => Except.ok (v :: vs, s₃)

/-- The observable output of `n` consecutive `generate()` calls. -/
def outputs {σ δ α : Type} (step : δ → σ → α × δ × σ) (sched : Nat → List Nat)
    (t n : Nat) (s : RngCache σ δ α) : Except String (List α) :=
  (consumeN step sched t n s).map (fun r => r.1)

end RngCache

/-- Embeds `RngCache::randomSeed()` over mathematical integers.
`seedBytes = sizeof(seed_type)`, `deviceBytes = sizeof(Device::result_type)`,
`device t` is the `t`-th draw of the `std::random_device`. The C++ code
computes `iterations = (seedSize - 1) / deviceSize` (sizes in BYTES) and in
each iteration executes `seed = (seed << deviceSize) | device();` — note the
shift amount is `deviceSize`, the size in bytes, not a bit count. All
arithmetic is in `seed_type`, i.e. modulo `2 ^ (8 * seedBytes)`. -/
def randomSeed (seedBytes deviceBytes : Nat) (device : Nat → Nat) : Nat :=
  let iterations := (seedBytes - 1) / deviceBytes
  (List.range iterations).foldl
    (fun s i =>
      ((s <<< deviceBytes) % 2 ^ (8 * seedBytes)) ||| (device (i + 1) % 2 ^ (8 * seedBytes)))
    (device 0 % 2 ^ (8 * seedBytes))

/-- Modelled from the spec: the seed-derivation §4.4 asks that each successive
entropy draw be shifted in by the device's full native BIT width
(`8 * deviceBytes` bits), concatenating draws until the seed width is filled. -/
def randomSeedSpec (seedBytes deviceBytes : Nat) (device : Nat → Nat) : Nat :=
  let iterations := (seedBytes - 1) / deviceBytes
  (List.range iterations).foldl
    (fun s i =>
      ((s <<< (8 * deviceBytes)) % 2 ^ (8 * seedBytes)) ||| (device (i + 1) % 2 ^ (8 * seedBytes)))
    (device 0 % 2 ^ (8 * seedBytes))

/-! ### Basic lemmas about stateful generation -/

theorem genList_eq {St α : Type} (gen : St → α × St) :
    ∀ (n : Nat) (s : St),
      genList gen n s = ((List.range n).map (nthOut gen s), iterState gen s n) := by
  intro n
  induction n with
  | zero => intro s; rfl
  | succ n ih =>
    intro s
    simp only [genList, ih (gen s).2, List.range_succ_eq_map, List.map_cons,
      List.map_map]
    rfl

theorem genList_length {St α : Type} (gen : St → α × St) (n : Nat) (s : St) :
    (genList gen n s).1.length = n := by
  simp [genList_eq]

theorem iterState_add {St α : Type} (gen : St → α × St) :
    ∀ (a : Nat) (s : St) (b : Nat),
      iterState gen s (a + b) = iterState gen (iterState gen s a) b := by
  intro a
  induction a with
  | zero => intro s b; simp [iterState, Nat.zero_add]
  | succ a ih =>
    intro s b
    have h : a + 1 + b = (a + b) + 1 := by omega
    rw [h]
    show iterState gen (gen s).2 (a + b) = _
    rw [ih (gen s).2 b]
    rfl

theorem nthOut_add {St α : Type} (gen : St → α × St) :
    ∀ (a : Nat) (s : St) (m : Nat),
      nthOut gen (iterState gen s a) m = nthOut gen s (a + m) := by
  intro a
  induction a with
  | zero => intro s m; simp [iterState, Nat.zero_add]
  | succ a ih =>
    intro s m
    have h : a + 1 + m = (a + m) + 1 := by omega
    rw [h]
    show nthOut gen (iterState gen (gen s).2 a) m = _
    rw [ih (gen s).2 m]
    rfl

/-! ### Basic lemmas about `Chunk` -/

namespace Chunk

theorem nextN_of_le {α : Type} :
    ∀ (n i : Nat) (vs : List α), i + n ≤ vs.length →
      Chunk.nextN ⟨i, vs⟩ n = some ((vs.drop i).take n, ⟨i + n, vs⟩) := by
  intro n
  induction n with
  | zero => intro i vs _; simp [Chunk.nextN]
  | succ n ih =>
    intro i vs h
    have hi : i < vs.length := by omega
    have hnext : Chunk.next ⟨i, vs⟩ =
        some (vs[i], ⟨i + 1, vs⟩) := by
      simp [Chunk.next, hi]
    have hdrop : vs.drop i = vs[i] :: vs.drop (i + 1) :=
      List.drop_eq_getElem_cons hi
    rw [Chunk.nextN, hnext]
    show Option.map (fun r => (vs[i] :: r.1, r.2))
        (Chunk.nextN ⟨i + 1, vs⟩ n) =
      some ((vs.drop i).take (n + 1), ⟨i + (n + 1), vs⟩)
    rw [ih (i + 1) vs (by omega), Option.map_some']
    refine congrArg some ?_
    have h1 : vs[i] :: (vs.drop (i + 1)).take n = (vs.drop i).take (n + 1) := by
      rw [hdrop]
      rfl
    have h2 : (⟨i + 1 + n, vs⟩ : Chunk α) = ⟨i + (n + 1), vs⟩ :=
      congrArg (fun m => (⟨m, vs⟩ : Chunk α)) (by omega)
    rw [← h1, h2]

end Chunk

/-! ### Lemmas about `Producer.fillStep` -/

namespace Producer

theorem fillStep_fillStep {σ δ α : Type} (step : δ → σ → α × δ × σ)
    (p : Producer σ δ α) : fillStep step (fillStep step p) = fillStep step p := by
  by_cases hs : p.shutdown
  · simp [fillStep, hs]
  · by_cases he : p.chunk.empty
    · have hp1 : fillStep step p =
          { p with
            chunk := ⟨0, (genList (fun st => step st.1 st.2)
              p.chunk.values.length (p.dist, p.engine)).1⟩
            dist := (genList (fun st => step st.1 st.2)
              p.chunk.values.length (p.dist, p.engine)).2.1
            engine := (genList (fun st => step st.1 st.2)
              p.chunk.values.length (p.dist, p.engine)).2.2 } := by
        simp [fillStep, hs, he, Chunk.fill]
      by_cases hlen : p.chunk.values.length = 0
      · have hnil : (genList (fun st => step st.1 st.2)
            p.chunk.values.length (p.dist, p.engine)).1 = [] := by
          rw [hlen]
          rfl
        rw [hp1]
        simp [fillStep, hs, Chunk.empty, hnil, hlen, genList, Chunk.fill]
      · rw [hp1]
        have hne : ((⟨0, (genList (fun st => step st.1 st.2)
            p.chunk.values.length (p.dist, p.engine)).1⟩ : Chunk α).empty) = false := by
          simp only [Chunk.empty, genList_length, beq_eq_false_iff_ne, ne_eq]
          omega
        simp [fillStep, hs, hne]
    · simp [fillStep, hs, he]

end Producer

/-! ### Lemmas about `modifyAt` -/

theorem modifyAt_length {β : Type} (f : β → β) :
    ∀ (l : List β) (i : Nat), (modifyAt f l i).length = l.length := by
  intro l
  induction l with
  | nil => intro i; rfl
  | cons x xs ih =>
    intro i
    cases i with
    | zero => rfl
    | succ i => simp [modifyAt, ih i]

theorem getElem?_modifyAt {β : Type} (f : β → β) :
    ∀ (l : List β) (i j : Nat),
      (modifyAt f l j)[i]? = if i = j then (l[i]?).map f else l[i]? := by
  intro l
  induction l with
  | nil => intro i j; simp [modifyAt]
  | cons x xs ih =>
    intro i j
    cases j with
    | zero =>
      cases i with
      | zero => simp [modifyAt]
      | succ i => simp [modifyAt]
    | succ j =>
      cases i with
      | zero => simp [modifyAt]
      | succ i => simpa [modifyAt] using ih i j

theorem map_fillStep_modifyAt {σ δ α : Type} (step : δ → σ → α × δ × σ) :
    ∀ (l : List (Producer σ δ α)) (j : Nat),
      (modifyAt (Producer.fillStep step) l j).map (Producer.fillStep step) =
        l.map (Producer.fillStep step) := by
  intro l
  induction l with
  | nil => intro j; rfl
  | cons x xs ih =>
    intro j
    cases j with
    | zero => simp [modifyAt, Producer.fillStep_fillStep]
    | succ j => simp [modifyAt, ih j]

/-! ### Schedule independence: normalization of producer states -/

/-- Normalizes a cache state by letting every producer's background thread
finish its pending fill. Two states with the same normalization are
indistinguishable to the consumer. -/
def normState {σ δ α : Type} (step : δ → σ → α × δ × σ) (s : RngCache σ δ α) :
    RngCache σ δ α :=
  { activeChunk := s.activeChunk
    producers := s.producers.map (Producer.fillStep step)
    nextProducer := s.nextProducer }

theorem map_fillStep_foldl {σ δ α : Type} (step : δ → σ → α × δ × σ) :
    ∀ (ids : List Nat) (ps : List (Producer σ δ α)),
      (ids.foldl (fun acc i => modifyAt (Producer.fillStep step) acc i) ps).map
          (Producer.fillStep step) =
        ps.map (Producer.fillStep step) := by
  intro ids
  induction ids with
  | nil => intro ps; rfl
  | cons i ids ih =>
    intro ps
    rw [List.foldl_cons, ih, map_fillStep_modifyAt]

theorem normState_runProducers {σ δ α : Type} (step : δ → σ → α × δ × σ)
    (s : RngCache σ δ α) (ids : List Nat) :
    normState step (RngCache.runProducers step s ids) = normState step s := by
  simp [normState, RngCache.runProducers, map_fillStep_foldl]

/-- Specialized equation for the fast path of `generate()`. -/
theorem generate_eq_fast {σ δ α : Type} (step : δ → σ → α × δ × σ)
    (s : RngCache σ δ α) (hemp : s.activeChunk.empty = false) :
    RngCache.generate step s =
      match s.activeChunk.next with
      | none => Except.error "assertion failed: next() on empty chunk"
      | some (v, c') => Except.ok (v, { s with activeChunk := c' }) := by
  rw [RngCache.generate, if_neg (by simp [hemp])]

/-- Specialized equation for the slow (swap) path of `generate()`. -/
theorem generate_eq_slow {σ δ α : Type} (step : δ → σ → α × δ × σ)
    (s : RngCache σ δ α) (hemp : s.activeChunk.empty = true)
    (p : Producer σ δ α) (hg : s.producers[s.nextProducer]? = some p) :
    RngCache.generate step s =
      (if (Producer.fillStep step p).swapWaitCondition then
        match (Producer.fillStep step p).swapChunk s.activeChunk with
        | (Except.error e, _, _) => Except.error e
        | (Except.ok (), p₂, newActive) =>
          match newActive.next with
          | none => Except.error "assertion failed: next() on empty chunk"
          | some (v, c') =>
            Except.ok (v, { activeChunk := c'
                            producers := s.producers.set s.nextProducer p₂
                            nextProducer := if s.nextProducer + 1 == s.producers.length
                                            then 0 else s.nextProducer + 1 })
      else Except.error "blocked forever: swap wait condition never satisfied") := by
  rw [RngCache.generate, if_pos hemp, hg]

/-- Specialized equation for the empty-pool UB path of `generate()`. -/
theorem generate_eq_nopool {σ δ α : Type} (step : δ → σ → α × δ × σ)
    (s : RngCache σ δ α) (hemp : s.activeChunk.empty = true)
    (hg : s.producers[s.nextProducer]? = none) :
    RngCache.generate step s =
      Except.error "undefined behaviour: empty producer pool" := by
  rw [RngCache.generate, if_pos hemp, hg]

/-- Unfolding equation for `consumeN` at a successor count. -/
theorem consumeN_succ {σ δ α : Type} (step : δ → σ → α × δ × σ)
    (sched : Nat → List Nat) (t n : Nat) (s : RngCache σ δ α) :
    RngCache.consumeN step sched t (n + 1) s =
      match RngCache.generate step (RngCache.runProducers step s (sched t)) with
      | Except.error e => Except.error e
      | Except.ok (v, s₂) =>
        match RngCache.consumeN step sched (t + 1) n s₂ with
        | Except.error e => Except.error e
        | Except.ok (vs, s₃) => Except.ok (v :: vs, s₃) := rfl

/-- The consumer-observable behaviour of `generate()` depends only on the
normalized state: the value returned, the error raised, and the normalization
of the successor state agree between two norm-equal states. -/
theorem generate_congr {σ δ α : Type} (step : δ → σ → α × δ × σ)
    {s₁ s₂ : RngCache σ δ α} (h : normState step s₁ = normState step s₂) :
    (RngCache.generate step s₁).map (fun r => (r.1, normState step r.2)) =
    (RngCache.generate step s₂).map (fun r => (r.1, normState step r.2)) := by
  have hA : s₁.activeChunk = s₂.activeChunk := by
    have hc := congrArg RngCache.activeChunk h
    simpa [normState] using hc
  have hI : s₁.nextProducer = s₂.nextProducer := by
    have hc := congrArg RngCache.nextProducer h
    simpa [normState] using hc
  have hP : s₁.producers.map (Producer.fillStep step) =
      s₂.producers.map (Producer.fillStep step) := by
    have hc := congrArg RngCache.producers h
    simpa [normState] using hc
  have hL : s₁.producers.length = s₂.producers.length := by
    have hlen := congrArg List.length hP
    simpa using hlen
  by_cases hemp : s₁.activeChunk.empty
  · have hemp₂ : s₂.activeChunk.empty := hA ▸ hemp
    have hget : (s₁.producers[s₁.nextProducer]?).map (Producer.fillStep step) =
        (s₂.producers[s₂.nextProducer]?).map (Producer.fillStep step) := by
      rw [← List.getElem?_map, ← List.getElem?_map, hP, hI]
    cases hg1 : s₁.producers[s₁.nextProducer]? with
    | none =>
      cases hg2 : s₂.producers[s₂.nextProducer]? with
      | none =>
        rw [generate_eq_nopool step s₁ hemp hg1, generate_eq_nopool step s₂ hemp₂ hg2]
      | some p₂ => rw [hg1, hg2] at hget; simp at hget
    | some p₁ =>
      cases hg2 : s₂.producers[s₂.nextProducer]? with
      | none => rw [hg1, hg2] at hget; simp at hget
      | some p₂ =>
        rw [hg1, hg2] at hget
        simp only [Option.map_some'] at hget
        have hfp : Producer.fillStep step p₁ = Producer.fillStep step p₂ :=
          Option.some.inj hget
        rw [generate_eq_slow step s₁ hemp p₁ hg1, generate_eq_slow step s₂ hemp₂ p₂ hg2]
        rw [← hA, ← hI, ← hL, ← hfp]
        by_cases hw : (Producer.fillStep step p₁).swapWaitCondition
        · rw [if_pos hw, if_pos hw]
          by_cases hsd : (Producer.fillStep step p₁).shutdown
          · simp [Producer.swapChunk, hsd]
          · simp only [Producer.swapChunk, hsd, Bool.false_eq_true, if_false,
              if_neg]
            cases hn : (Producer.fillStep step p₁).chunk.next with
            | none => simp
            | some r =>
              obtain ⟨v, c'⟩ := r
              simp only [Except.map]
              refine congrArg Except.ok ?_
              refine congrArg (fun ps => (v, ps)) ?_
              simp [normState, List.map_set, hP]
        · rw [if_neg hw, if_neg hw]
  · have hemp₂ : s₂.activeChunk.empty = false := by
      rw [← hA]
      exact Bool.not_eq_true _ ▸ eq_false_of_ne_true hemp
    have hemp₁ : s₁.activeChunk.empty = false := eq_false_of_ne_true hemp
    rw [generate_eq_fast step s₁ hemp₁, generate_eq_fast step s₂ hemp₂, ← hA]
    cases hn : s₁.activeChunk.next with
    | none => simp
    | some r =>
      obtain ⟨v, c'⟩ := r
      simp only [Except.map]
      refine congrArg Except.ok ?_
      refine congrArg (fun ps => (v, ps)) ?_
      simp [normState, hP, hI]

/-- `n` consecutive `generate()` calls return the same values (or the same
error), and norm-equal final states, from norm-equal start states — for ANY
two thread schedules. -/
theorem consumeN_congr {σ δ α : Type} (step : δ → σ → α × δ × σ)
    (sched₁ sched₂ : Nat → List Nat) :
    ∀ (n t₁ t₂ : Nat) (s₁ s₂ : RngCache σ δ α),
      normState step s₁ = normState step s₂ →
      (RngCache.consumeN step sched₁ t₁ n s₁).map (fun r => (r.1, normState step r.2)) =
      (RngCache.consumeN step sched₂ t₂ n s₂).map (fun r => (r.1, normState step r.2)) := by
  intro n
  induction n with
  | zero =>
    intro t₁ t₂ s₁ s₂ h
    simp only [RngCache.consumeN, Except.map]
    rw [h]
  | succ n ih =>
    intro t₁ t₂ s₁ s₂ h
    have h₁ : normState step (RngCache.runProducers step s₁ (sched₁ t₁)) =
        normState step (RngCache.runProducers step s₂ (sched₂ t₂)) := by
      rw [normState_runProducers, normState_runProducers, h]
    have hg := generate_congr step h₁
    rw [consumeN_succ, consumeN_succ]
    cases hg1 : RngCache.generate step (RngCache.runProducers step s₁ (sched₁ t₁)) with
    | error e =>
      cases hg2 : RngCache.generate step (RngCache.runProducers step s₂ (sched₂ t₂)) with
      | error e' =>
        rw [hg1, hg2] at hg
        simp only [Except.map, Except.error.injEq] at hg
        rw [hg]
      | ok r => rw [hg1, hg2] at hg; simp [Except.map] at hg
    | ok r =>
      cases hg2 : RngCache.generate step (RngCache.runProducers step s₂ (sched₂ t₂)) with
      | error e' => rw [hg1, hg2] at hg; simp [Except.map] at hg
      | ok r' =>
        obtain ⟨v, sv⟩ := r
        obtain ⟨v', sv'⟩ := r'
        rw [hg1, hg2] at hg
        simp only [Except.map, Except.ok.injEq, Prod.mk.injEq] at hg
        obtain ⟨hv, hs⟩ := hg
        have hrec := ih (t₁ + 1) (t₂ + 1) sv sv' hs
        cases hc1 : RngCache.consumeN step sched₁ (t₁ + 1) n sv with
        | error e =>
          cases hc2 : RngCache.consumeN step sched₂ (t₂ + 1) n sv' with
          | error e' =>
            rw [hc1, hc2] at hrec
            simp only [Except.map, Except.error.injEq] at hrec
            simp only [Except.map, hc1, hc2, hrec]
          | ok u => rw [hc1, hc2] at hrec; simp [Except.map] at hrec
        | ok u =>
          cases hc2 : RngCache.consumeN step sched₂ (t₂ + 1) n sv' with
          | error e' => rw [hc1, hc2] at hrec; simp [Except.map] at hrec
          | ok u' =>
            obtain ⟨vs, su⟩ := u
            obtain ⟨vs', su'⟩ := u'
            rw [hc1, hc2] at hrec
            simp only [Except.map, Except.ok.injEq, Prod.mk.injEq] at hrec
            obtain ⟨hvs, hs'⟩ := hrec
            simp [Except.map, hc1, hc2, hv, hvs, hs']

/-! ### Worker streams and the round-robin invariant -/

/-- `m_distribution(m_engine)` as a single stateful generator over the
combined distribution+engine state. -/
def dstep {σ δ α : Type} (step : δ → σ → α × δ × σ) : δ × σ → α × (δ × σ) :=
  fun st => step st.1 st.2

section Streams

variable {σ δ α Sd : Type} (C : Nat) (step : δ → σ → α × δ × σ)
  (engNext : σ → Sd × σ) (seedEngine : Sd → σ) (d : δ) (seed : Sd)

/-- Worker `i`'s initial state: the distribution copy `d` and a fresh engine
seeded with the `i`-th sequential raw draw of the root engine built from
`seed` — exactly what `Producer::create` hands the `i`-th `Producer`. -/
def workerInit (i : Nat) : δ × σ :=
  (d, seedEngine (childSeed engNext (seedEngine seed) i))

/-- The `m`-th value (0-based) of worker `i`'s stream: the `m`-th result of
repeatedly evaluating `distribution(engine)` from worker `i`'s initial state. -/
def workerNth (i m : Nat) : α :=
  nthOut (dstep step) (workerInit engNext seedEngine d seed i) m

/-- Worker `i`'s distribution+engine state after `m` draws. -/
def workerIter (i m : Nat) : δ × σ :=
  iterState (dstep step) (workerInit engNext seedEngine d seed i) m

/-- The `t`-th capacity-`C` run of worker `i`'s stream
(draws `t·C` through `t·C + C - 1`). -/
def chunkVals (i t : Nat) : List α :=
  (List.range C).map (fun m => workerNth step engNext seedEngine d seed i (t * C + m))

/-- The normal form of worker `i`'s producer state after `t` hand-offs: its
next chunk is filled and waiting and the engine is `(t+1)·C` draws in. -/
def canonProd (i t : Nat) : Producer σ δ α :=
  { shutdown := false
    chunk := ⟨0, chunkVals C step engNext seedEngine d seed i t⟩
    dist := (workerIter step engNext seedEngine d seed i ((t + 1) * C)).1
    engine := (workerIter step engNext seedEngine d seed i ((t + 1) * C)).2 }

/-- The number of hand-offs worker `i` has performed once `Q` chunks have been
started in total under round-robin order. -/
def swapCount (N i Q : Nat) : Nat :=
  Q / N + if i < Q % N then 1 else 0

/-- The value the `j`-th `generate()` call (0-based) must return: position
`j % C` of chunk `j / C / N` of worker `(j / C) % N`'s stream. -/
def idealVal (N : Nat) (j : Nat) : α :=
  workerNth step engNext seedEngine d seed (j / C % N) (j / C / N * C + j % C)

end Streams

/-- Invariant of the cache state after `j = q·C + r` consumed values
(`r < C`): the round-robin cursor and every producer's normalized state are
determined, the active chunk holds the tail of the current in-flight run. -/
structure Inv {σ δ α Sd : Type} (C : Nat) (step : δ → σ → α × δ × σ)
    (engNext : σ → Sd × σ) (seedEngine : Sd → σ) (d : δ) (seed : Sd) (N : Nat)
    (q r : Nat) (s : RngCache σ δ α) : Prop where
  lenP : s.producers.length = N
  idx : s.nextProducer = (if r = 0 then q else q + 1) % N
  prods : ∀ i, i < N →
    (s.producers[i]?).map (Producer.fillStep step) =
      some (canonProd C step engNext seedEngine d seed i
        (swapCount N i (if r = 0 then q else q + 1)))
  activeB : r = 0 → s.activeChunk.nextIndex = s.activeChunk.values.length ∧
      s.activeChunk.values.length = C
  activeM : r ≠ 0 →
    s.activeChunk = ⟨r, chunkVals C step engNext seedEngine d seed (q % N) (q / N)⟩

/-! ### Arithmetic helpers for the round-robin bookkeeping -/

theorem succ_div_mod_eq {N q : Nat} (hN : 0 < N) (h : q % N + 1 = N) :
    (q + 1) / N = q / N + 1 ∧ (q + 1) % N = 0 := by
  have hq := Nat.div_add_mod q N
  have hm : N * (q / N + 1) = N * (q / N) + N := Nat.mul_succ N (q / N)
  exact (Nat.div_mod_unique hN).mpr (by omega)

theorem succ_div_mod_lt {N q : Nat} (hN : 0 < N) (h : q % N + 1 < N) :
    (q + 1) / N = q / N ∧ (q + 1) % N = q % N + 1 := by
  have hq := Nat.div_add_mod q N
  exact (Nat.div_mod_unique hN).mpr (by omega)

theorem succ_mod_eq_ite {N q : Nat} (hN : 0 < N) :
    (q + 1) % N = if q % N + 1 = N then 0 else q % N + 1 := by
  have hb : q % N < N := Nat.mod_lt _ hN
  by_cases h : q % N + 1 = N
  · rw [if_pos h]
    exact (succ_div_mod_eq hN h).2
  · rw [if_neg h]
    exact (succ_div_mod_lt hN (by omega)).2

theorem swapCount_succ {N i q : Nat} (hN : 0 < N) (hi : i < N) :
    swapCount N i (q + 1) = swapCount N i q + if i = q % N then 1 else 0 := by
  have hb : q % N < N := Nat.mod_lt _ hN
  by_cases h : q % N + 1 = N
  · obtain ⟨hd, hm⟩ := succ_div_mod_eq hN h
    rw [swapCount, swapCount, hd, hm]
    split_ifs <;> omega
  · obtain ⟨hd, hm⟩ := succ_div_mod_lt (q := q) hN (by omega)
    rw [swapCount, swapCount, hd, hm]
    split_ifs <;> omega

theorem mul_add_div_mod {C q r : Nat} (hC : 0 < C) (hr : r < C) :
    (q * C + r) / C = q ∧ (q * C + r) % C = r := by
  constructor
  · rw [Nat.add_comm, Nat.add_mul_div_right _ _ hC, Nat.div_eq_of_lt hr, Nat.zero_add]
  · rw [Nat.add_comm, Nat.add_mul_mod_self_right, Nat.mod_eq_of_lt hr]

/-! ### Helper lemmas about worker chunks and producer normal forms -/

section StreamLemmas

variable {σ δ α Sd : Type} (C : Nat) (step : δ → σ → α × δ × σ)
  (engNext : σ → Sd × σ) (seedEngine : Sd → σ) (d : δ) (seed : Sd)

theorem chunkVals_length (i t : Nat) :
    (chunkVals C step engNext seedEngine d seed i t).length = C := by
  simp [chunkVals]

theorem next_chunkVals {m : Nat} (hm : m < C) (i t : Nat) :
    Chunk.next ⟨m, chunkVals C step engNext seedEngine d seed i t⟩ =
      some (workerNth step engNext seedEngine d seed i (t * C + m),
        ⟨m + 1, chunkVals C step engNext seedEngine d seed i t⟩) := by
  have hlen : m < (chunkVals C step engNext seedEngine d seed i t).length := by
    rw [chunkVals_length]
    exact hm
  simp [Chunk.next, hlen, chunkVals, hm]

theorem full_chunkVals (i t : Nat) :
    (Chunk.full ⟨0, chunkVals C step engNext seedEngine d seed i t⟩) = true := by
  simp [Chunk.full]

/-- Letting the background thread fill an exhausted capacity-`C` chunk from the
worker state `t·C` draws in yields exactly the canonical producer state after
`t` hand-offs. -/
theorem fillStep_worker (c : Chunk α) (hne : c.nextIndex = c.values.length)
    (hlen : c.values.length = C) (i t : Nat) :
    Producer.fillStep step
      { shutdown := false, chunk := c
        dist := (workerIter step engNext seedEngine d seed i (t * C)).1
        engine := (workerIter step engNext seedEngine d seed i (t * C)).2 } =
      canonProd C step engNext seedEngine d seed i t := by
  have hemp : c.empty = true := by
    simp [Chunk.empty, hne]
  have hvals : (List.range C).map (nthOut (dstep step)
      (workerIter step engNext seedEngine d seed i (t * C))) =
      chunkVals C step engNext seedEngine d seed i t := by
    refine List.map_congr_left ?_
    intro m _
    show nthOut (dstep step) (iterState (dstep step)
      (workerInit engNext seedEngine d seed i) (t * C)) m = _
    rw [nthOut_add]
    rfl
  have hst : iterState (dstep step)
      (workerIter step engNext seedEngine d seed i (t * C)) C =
      workerIter step engNext seedEngine d seed i ((t + 1) * C) := by
    show iterState (dstep step) (iterState (dstep step)
      (workerInit engNext seedEngine d seed i) (t * C)) C = _
    rw [← iterState_add, workerIter, Nat.succ_mul]
  simp only [Producer.fillStep, hemp, if_true, Bool.false_eq_true, if_false,
    Chunk.fill, hlen, Prod.mk.eta]
  rw [show (fun (st : δ × σ) => step st.1 st.2) = dstep step from rfl]
  rw [genList_eq]
  simp [canonProd, Producer.mk.injEq, Chunk.mk.injEq, hvals, hst]

end StreamLemmas

/-! ### The step lemma: one `generate()` call under the invariant -/

theorem generate_inv {σ δ α Sd : Type} {C : Nat} {step : δ → σ → α × δ × σ}
    {engNext : σ → Sd × σ} {seedEngine : Sd → σ} {d : δ} {seed : Sd} {N : Nat}
    {q r : Nat} {s : RngCache σ δ α}
    (hC : 0 < C) (hN : 0 < N) (hr : r < C)
    (hInv : Inv C step engNext seedEngine d seed N q r s) :
    ∃ s', RngCache.generate step s =
        Except.ok (workerNth step engNext seedEngine d seed (q % N) (q / N * C + r), s') ∧
      Inv C step engNext seedEngine d seed N
        (if r + 1 = C then q + 1 else q) (if r + 1 = C then 0 else r + 1) s' := by
  have hmod : (if q % N + 1 == N then (0 : Nat) else q % N + 1) = (q + 1) % N := by
    rw [succ_mod_eq_ite hN]
    by_cases hq : q % N + 1 = N
    · simp [hq]
    · simp [hq]
  by_cases hr0 : r = 0
  · subst hr0
    obtain ⟨hnei, hlc⟩ := hInv.activeB rfl
    have hemp : s.activeChunk.empty = true := by simp [Chunk.empty, hnei]
    have hQ : (if (0 : Nat) = 0 then q else q + 1) = q := if_pos rfl
    have hidx : s.nextProducer = q % N := by
      have h := hInv.idx
      rw [hQ] at h
      exact h
    have hiN : q % N < N := Nat.mod_lt _ hN
    have hsc : swapCount N (q % N) q = q / N := by
      simp [swapCount, Nat.lt_irrefl]
    have hprod := hInv.prods (q % N) hiN
    rw [hQ, hsc] at hprod
    obtain ⟨p, hp, hfp⟩ := Option.map_eq_some'.mp hprod
    have hget : s.producers[s.nextProducer]? = some p := by
      rw [hidx]
      exact hp
    have hw : (canonProd C step engNext seedEngine d seed (q % N) (q / N)).swapWaitCondition
        = true := by
      simp [Producer.swapWaitCondition, canonProd, Chunk.full]
    have hswap : (canonProd C step engNext seedEngine d seed (q % N) (q / N)).swapChunk
        s.activeChunk =
        (Except.ok (),
          { canonProd C step engNext seedEngine d seed (q % N) (q / N) with
              chunk := s.activeChunk },
          ⟨0, chunkVals C step engNext seedEngine d seed (q % N) (q / N)⟩) := by
      simp [Producer.swapChunk, canonProd]
    refine ⟨{ activeChunk := ⟨1, chunkVals C step engNext seedEngine d seed (q % N) (q / N)⟩
              producers := s.producers.set (q % N)
                { canonProd C step engNext seedEngine d seed (q % N) (q / N) with
                    chunk := s.activeChunk }
              nextProducer := (q + 1) % N }, ?_, ?_⟩
    · rw [generate_eq_slow step s hemp p hget, hfp, if_pos hw, hswap]
      rw [hidx, hInv.lenP]
      simp only [next_chunkVals C step engNext seedEngine d seed hC, hmod, Nat.zero_add]
    · -- the invariant at j + 1
      have hp₂ : ({ canonProd C step engNext seedEngine d seed (q % N) (q / N) with
            chunk := s.activeChunk } : Producer σ δ α) =
          { shutdown := false, chunk := s.activeChunk
            dist := (workerIter step engNext seedEngine d seed (q % N) ((q / N + 1) * C)).1
            engine := (workerIter step engNext seedEngine d seed (q % N) ((q / N + 1) * C)).2 } := by
        simp [canonProd]
      have hprods' : ∀ i, i < N →
          ((s.producers.set (q % N)
              { canonProd C step engNext seedEngine d seed (q % N) (q / N) with
                  chunk := s.activeChunk })[i]?).map (Producer.fillStep step) =
            some (canonProd C step engNext seedEngine d seed i (swapCount N i (q + 1))) := by
        intro i hi
        by_cases hiq : i = q % N
        · rw [hiq]
          have hset : (s.producers.set (q % N)
              { canonProd C step engNext seedEngine d seed (q % N) (q / N) with
                  chunk := s.activeChunk })[q % N]? =
              some { canonProd C step engNext seedEngine d seed (q % N) (q / N) with
                  chunk := s.activeChunk } := by
            rw [List.getElem?_set_self']
            simp [hInv.lenP, hiN]
          rw [hset]
          simp only [Option.map_some']
          rw [hp₂, fillStep_worker C step engNext seedEngine d seed s.activeChunk hnei hlc]
          have hcnt : swapCount N (q % N) (q + 1) = q / N + 1 := by
            rw [swapCount_succ hN hiN, if_pos rfl, hsc]
          rw [hcnt]
        · have hset : (s.producers.set (q % N)
              { canonProd C step engNext seedEngine d seed (q % N) (q / N) with
                  chunk := s.activeChunk })[i]? = s.producers[i]? := by
            rw [List.getElem?_set_ne (fun h => hiq h.symm)]
          rw [hset]
          have hold := hInv.prods i hi
          rw [hQ] at hold
          rw [hold]
          have hcnt : swapCount N i (q + 1) = swapCount N i q := by
            rw [swapCount_succ hN hi, if_neg hiq]
            omega
          rw [hcnt]
      by_cases hC1 : 0 + 1 = C
      · rw [if_pos hC1, if_pos hC1]
        refine { lenP := ?_, idx := ?_, prods := ?_, activeB := ?_, activeM := ?_ }
        · simp [List.length_set, hInv.lenP]
        · simp
        · intro i hi
          have h := hprods' i hi
          rw [if_pos rfl]
          exact h
        · intro _
          constructor
          · show (1 : Nat) = (chunkVals C step engNext seedEngine d seed (q % N) (q / N)).length
            rw [chunkVals_length]
            omega
          · exact chunkVals_length C step engNext seedEngine d seed _ _
        · intro hcon
          exact absurd rfl hcon
      · rw [if_neg hC1, if_neg hC1]
        refine { lenP := ?_, idx := ?_, prods := ?_, activeB := ?_, activeM := ?_ }
        · simp [List.length_set, hInv.lenP]
        · simp
        · intro i hi
          have h := hprods' i hi
          rw [if_neg (by omega)]
          exact h
        · intro hcon
          omega
        · intro _
          rfl
  · -- mid-chunk fast path
    have hact := hInv.activeM hr0
    have hemp : s.activeChunk.empty = false := by
      rw [hact]
      simp only [Chunk.empty, chunkVals_length, beq_eq_false_iff_ne, ne_eq]
      omega
    have hQ : (if r = 0 then q else q + 1) = q + 1 := if_neg hr0
    refine ⟨{ s with activeChunk :=
        ⟨r + 1, chunkVals C step engNext seedEngine d seed (q % N) (q / N)⟩ }, ?_, ?_⟩
    · rw [generate_eq_fast step s hemp, hact,
        next_chunkVals C step engNext seedEngine d seed hr]
    · by_cases hrC : r + 1 = C
      · rw [if_pos hrC, if_pos hrC]
        refine { lenP := hInv.lenP, idx := ?_, prods := ?_, activeB := ?_, activeM := ?_ }
        · have h := hInv.idx
          rw [hQ] at h
          rw [if_pos rfl]
          exact h
        · intro i hi
          have h := hInv.prods i hi
          rw [hQ] at h
          rw [if_pos rfl]
          exact h
        · intro _
          constructor
          · show (r + 1 : Nat) = (chunkVals C step engNext seedEngine d seed (q % N) (q / N)).length
            rw [chunkVals_length]
            omega
          · exact chunkVals_length C step engNext seedEngine d seed _ _
        · intro hcon
          exact absurd rfl hcon
      · rw [if_neg hrC, if_neg hrC]
        refine { lenP := hInv.lenP, idx := ?_, prods := ?_, activeB := ?_, activeM := ?_ }
        · have h := hInv.idx
          rw [hQ] at h
          rw [if_neg (by omega)]
          exact h
        · intro i hi
          have h := hInv.prods i hi
          rw [hQ] at h
          rw [if_neg (by omega)]
          exact h
        · intro hcon
          omega
        · intro _
          rfl

/-! ### The invariant is preserved by the schedule and by consumption -/

theorem foldl_modifyAt_length {β : Type} (f : β → β) :
    ∀ (ids : List Nat) (l : List β),
      (ids.foldl (fun acc i => modifyAt f acc i) l).length = l.length := by
  intro ids
  induction ids with
  | nil => intro l; rfl
  | cons i ids ih =>
    intro l
    rw [List.foldl_cons, ih, modifyAt_length]

theorem runProducers_inv {σ δ α Sd : Type} {C : Nat} {step : δ → σ → α × δ × σ}
    {engNext : σ → Sd × σ} {seedEngine : Sd → σ} {d : δ} {seed : Sd} {N : Nat}
    {q r : Nat} {s : RngCache σ δ α}
    (hInv : Inv C step engNext seedEngine d seed N q r s) (ids : List Nat) :
    Inv C step engNext seedEngine d seed N q r (RngCache.runProducers step s ids) := by
  refine { lenP := ?_, idx := hInv.idx, prods := ?_, activeB := hInv.activeB
           activeM := hInv.activeM }
  · show (ids.foldl (fun acc i => modifyAt (Producer.fillStep step) acc i)
      s.producers).length = N
    rw [foldl_modifyAt_length, hInv.lenP]
  · intro i hi
    have h1 := congrArg (fun l => l[i]?) (map_fillStep_foldl step ids s.producers)
    simp only [List.getElem?_map] at h1
    show ((ids.foldl (fun acc i => modifyAt (Producer.fillStep step) acc i)
      s.producers)[i]?).map (Producer.fillStep step) = _
    rw [h1]
    exact hInv.prods i hi

theorem idealVal_eq {σ δ α Sd : Type} {C : Nat} (step : δ → σ → α × δ × σ)
    (engNext : σ → Sd × σ) (seedEngine : Sd → σ) (d : δ) (seed : Sd)
    {q r N : Nat} (hC : 0 < C) (hr : r < C) :
    idealVal C step engNext seedEngine d seed N (q * C + r) =
      workerNth step engNext seedEngine d seed (q % N) (q / N * C + r) := by
  obtain ⟨hdv, hmd⟩ := mul_add_div_mod (q := q) hC hr
  rw [idealVal, hdv, hmd]

theorem consumeN_inv {σ δ α Sd : Type} {C : Nat} {step : δ → σ → α × δ × σ}
    {engNext : σ → Sd × σ} {seedEngine : Sd → σ} {d : δ} {seed : Sd} {N : Nat}
    (hC : 0 < C) (hN : 0 < N) (sched : Nat → List Nat) :
    ∀ (n q r t : Nat) (s : RngCache σ δ α), r < C →
      Inv C step engNext seedEngine d seed N q r s →
      ∃ q' r' s', r' < C ∧ q' * C + r' = q * C + r + n ∧
        Inv C step engNext seedEngine d seed N q' r' s' ∧
        RngCache.consumeN step sched t n s =
          Except.ok ((List.range n).map
            (fun m => idealVal C step engNext seedEngine d seed N (q * C + r + m)), s') := by
  intro n
  induction n with
  | zero =>
    intro q r t s hr hInv
    exact ⟨q, r, s, hr, rfl, hInv, by simp [RngCache.consumeN]⟩
  | succ n ih =>
    intro q r t s hr hInv
    have hInv₁ := runProducers_inv hInv (sched t)
    obtain ⟨s₂, hgen, hInv₂⟩ := generate_inv hC hN hr hInv₁
    have hr₂ : (if r + 1 = C then 0 else r + 1) < C := by
      by_cases h : r + 1 = C
      · rw [if_pos h]
        exact hC
      · rw [if_neg h]
        omega
    obtain ⟨q', r', s', hr', hsum, hInv', hcons⟩ :=
      ih (if r + 1 = C then q + 1 else q) (if r + 1 = C then 0 else r + 1)
        (t + 1) s₂ hr₂ hInv₂
    refine ⟨q', r', s', hr', ?_, hInv', ?_⟩
    · by_cases h : r + 1 = C
      · rw [if_pos h, if_pos h] at hsum
        have hsm : (q + 1) * C = q * C + C := Nat.succ_mul q C
        omega
      · rw [if_neg h, if_neg h] at hsum
        omega
    · have hvl : workerNth step engNext seedEngine d seed (q % N) (q / N * C + r) =
          idealVal C step engNext seedEngine d seed N (q * C + r) :=
        (idealVal_eq step engNext seedEngine d seed hC hr).symm
      have hlist : (List.range (n + 1)).map
            (fun m => idealVal C step engNext seedEngine d seed N (q * C + r + m)) =
          idealVal C step engNext seedEngine d seed N (q * C + r) ::
            (List.range n).map (fun m =>
              idealVal C step engNext seedEngine d seed N
                ((if r + 1 = C then q + 1 else q) * C +
                  (if r + 1 = C then 0 else r + 1) + m)) := by
        rw [List.range_succ_eq_map, List.map_cons, List.map_map]
        refine congrArg₂ List.cons (by rw [Nat.add_zero]) ?_
        refine List.map_congr_left ?_
        intro m _
        show idealVal C step engNext seedEngine d seed N (q * C + r + (m + 1)) = _
        refine congrArg (idealVal C step engNext seedEngine d seed N) ?_
        by_cases h : r + 1 = C
        · rw [if_pos h, if_pos h]
          have hsm : (q + 1) * C = q * C + C := Nat.succ_mul q C
          omega
        · rw [if_neg h, if_neg h]
          omega
      rw [hlist]
      simp only [consumeN_succ, hgen, hcons, hvl]

/-! ### The initial state satisfies the invariant -/

theorem createAux_length {σ δ α Sd : Type} (C : Nat) (dflt : α)
    (engNext : σ → Sd × σ) (seedEngine : Sd → σ) (d : δ) :
    ∀ (n : Nat) (e : σ),
      (Producer.createAux C dflt engNext seedEngine d e n : List (Producer σ δ α)).length
        = n := by
  intro n
  induction n with
  | zero => intro e; rfl
  | succ n ih =>
    intro e
    show (_ :: Producer.createAux C dflt engNext seedEngine d (engNext e).2 n).length = n + 1
    rw [List.length_cons, ih]

theorem createAux_getElem? {σ δ α Sd : Type} (C : Nat) (dflt : α)
    (engNext : σ → Sd × σ) (seedEngine : Sd → σ) (d : δ) :
    ∀ (n : Nat) (e : σ) (i : Nat), i < n →
      (Producer.createAux C dflt engNext seedEngine d e n : List (Producer σ δ α))[i]? =
        some { shutdown := false, chunk := Chunk.init C dflt, dist := d
               engine := seedEngine (childSeed engNext e i) } := by
  intro n
  induction n with
  | zero => intro e i hi; omega
  | succ n ih =>
    intro e i hi
    cases i with
    | zero =>
      simp only [Producer.createAux, List.getElem?_cons_zero]
      rfl
    | succ i =>
      simp only [Producer.createAux, List.getElem?_cons_succ]
      rw [ih (engNext e).2 i (by omega)]
      rfl

theorem init_inv {σ δ α Sd : Type} {C : Nat} {step : δ → σ → α × δ × σ}
    {engNext : σ → Sd × σ} {seedEngine : Sd → σ} {d : δ} {seed : Sd} {N : Nat}
    (dflt : α) (hC : 0 < C) (hN : 0 < N) :
    Inv C step engNext seedEngine d seed N 0 0
      (RngCache.init C dflt engNext seedEngine d seed N) := by
  refine { lenP := ?_, idx := ?_, prods := ?_, activeB := ?_, activeM := ?_ }
  · show (Producer.create C dflt engNext seedEngine d seed N : List (Producer σ δ α)).length = N
    rw [Producer.create, createAux_length]
  · show (0 : Nat) = (if (0 : Nat) = 0 then 0 else 1) % N
    rw [if_pos rfl, Nat.zero_mod]
  · intro i hi
    show ((Producer.create C dflt engNext seedEngine d seed N :
      List (Producer σ δ α))[i]?).map (Producer.fillStep step) = _
    rw [Producer.create, createAux_getElem? C dflt engNext seedEngine d N (seedEngine seed) i hi]
    simp only [Option.map_some']
    have h0 : (0 : Nat) * C = 0 := Nat.zero_mul C
    have hraw : ({ shutdown := false
                   chunk := Chunk.init C dflt
                   dist := d
                   engine := seedEngine (childSeed engNext (seedEngine seed) i) } :
          Producer σ δ α) =
        { shutdown := false
          chunk := Chunk.init C dflt
          dist := (workerIter step engNext seedEngine d seed i (0 * C)).1
          engine := (workerIter step engNext seedEngine d seed i (0 * C)).2 } := by
      rw [h0]
      rfl
    rw [hraw, fillStep_worker C step engNext seedEngine d seed (Chunk.init C dflt)
      (by simp [Chunk.init]) (by simp [Chunk.init]) i 0]
    simp [swapCount]
  · intro _
    constructor
    · show C = (List.replicate C dflt).length
      rw [List.length_replicate]
    · show (List.replicate C dflt).length = C
      rw [List.length_replicate]
  · intro h
    exact absurd rfl h

/-- The full characterization of the first `k` outputs of a freshly constructed
cache, for any thread schedule: the `j`-th value is `idealVal j`. -/
theorem outputs_init {σ δ α Sd : Type} {C : Nat} {step : δ → σ → α × δ × σ}
    {engNext : σ → Sd × σ} {seedEngine : Sd → σ} {d : δ} {seed : Sd} {N : Nat}
    (dflt : α) (hC : 0 < C) (hN : 0 < N) (sched : Nat → List Nat) (k : Nat) :
    RngCache.outputs step sched 0 k (RngCache.init C dflt engNext seedEngine d seed N) =
      Except.ok ((List.range k).map (idealVal C step engNext seedEngine d seed N)) := by
  obtain ⟨q', r', s', _, _, _, hcons⟩ :=
    consumeN_inv hC hN sched k 0 0 0
      (RngCache.init C dflt engNext seedEngine d seed N) hC (init_inv dflt hC hN)
  rw [RngCache.outputs, hcons]
  simp [Except.map, Nat.zero_mul]

/-! ### Counting a single worker's contributions -/

theorem getD_map_range {β : Type} (f : Nat → β) (dflt : β) {j k : Nat} (hj : j < k) :
    (((List.range k).map f).getD j dflt) = f j := by
  rw [List.getD_eq_getElem?_getD, List.getElem?_map, List.getElem?_range hj]
  rfl

/-- How many of the first `k` consumed values are attributed to worker `i`. -/
theorem count_contrib {C N i : Nat} (hC : 0 < C) (hN : 0 < N) (hi : i < N) :
    ∀ k, ((List.range k).filter (fun j => j / C % N == i)).length =
      C * swapCount N i (k / C) + (if k / C % N = i then k % C else 0) := by
  intro k
  induction k with
  | zero => simp [swapCount]
  | succ k ih =>
    rw [List.range_succ, List.filter_append, List.length_append, ih]
    have hone : (List.filter (fun j => j / C % N == i) [k]).length =
        if k / C % N = i then 1 else 0 := by
      by_cases hki : k / C % N = i
      · have hb : (k / C % N == i) = true := beq_iff_eq.mpr hki
        simp [List.filter, hb, hki]
      · have hb : (k / C % N == i) = false := beq_eq_false_iff_ne.mpr hki
        simp [List.filter, hb, hki]
    rw [hone]
    have hbC : k % C < C := Nat.mod_lt _ hC
    by_cases hend : k % C + 1 = C
    · obtain ⟨hd, hm⟩ := succ_div_mod_eq (q := k) hC hend
      rw [hd, hm, swapCount_succ hN hi, ite_self]
      by_cases hki : k / C % N = i
      · rw [if_pos hki, if_pos hki, if_pos hki.symm, Nat.mul_succ]
        omega
      · rw [if_neg hki, if_neg hki, if_neg (fun hh => hki hh.symm),
          Nat.add_zero (swapCount N i (k / C))]
    · obtain ⟨hd, hm⟩ := succ_div_mod_lt (q := k) hC (by omega)
      rw [hd, hm]
      by_cases hki : k / C % N = i
      · rw [if_pos hki, if_pos hki, if_pos hki]
        omega
      · rw [if_neg hki, if_neg hki, if_neg hki]

/-- The values attributed to worker `i` among the first `k` ideal outputs are,
in order, exactly the first draws of worker `i`'s own stream. -/
theorem contrib_map {σ δ α Sd : Type} {C : Nat} (step : δ → σ → α × δ × σ)
    (engNext : σ → Sd × σ) (seedEngine : Sd → σ) (d : δ) (seed : Sd)
    {N i : Nat} (hC : 0 < C) (hN : 0 < N) (hi : i < N) :
    ∀ k, ((List.range k).filter (fun j => j / C % N == i)).map
        (idealVal C step engNext seedEngine d seed N) =
      (List.range (((List.range k).filter (fun j => j / C % N == i)).length)).map
        (workerNth step engNext seedEngine d seed i) := by
  intro k
  induction k with
  | zero => rfl
  | succ k ih =>
    rw [List.range_succ, List.filter_append]
    by_cases hki : k / C % N = i
    · have hsing : List.filter (fun j => j / C % N == i) [k] = [k] := by
        simp [List.filter, hki]
      have hsw : swapCount N i (k / C) = k / C / N := by
        rw [swapCount, ← hki]
        simp [Nat.lt_irrefl]
      have hval : idealVal C step engNext seedEngine d seed N k =
          workerNth step engNext seedEngine d seed i
            (((List.range k).filter (fun j => j / C % N == i)).length) := by
        rw [count_contrib hC hN hi k, if_pos hki, hsw, idealVal, hki]
        refine congrArg (workerNth step engNext seedEngine d seed i) ?_
        rw [Nat.mul_comm]
      rw [hsing, List.map_append, ih, List.length_append, List.length_singleton,
        List.range_succ, List.map_append]
      refine congrArg₂ (fun a b => a ++ b) rfl ?_
      show [idealVal C step engNext seedEngine d seed N k] = _
      rw [hval]
      rfl
    · have hsing : List.filter (fun j => j / C % N == i) [k] = [] := by
        have hb : (k / C % N == i) = false := beq_eq_false_iff_ne.mpr hki
        simp [List.filter, hb]
      rw [hsing]
      simp only [List.append_nil]
      exact ih

/-! ### Concrete instantiation used by witnesses and counterexamples

Engine state is a counter; a raw engine draw returns the counter and
increments it; the stand-in distribution returns the engine state (this is the
deterministic stand-in distribution of spec §8). -/

def natStep : Unit → Nat → Nat × Unit × Nat := fun _ e => (e, (), e + 1)

def natEngNext : Nat → Nat × Nat := fun e => (e, e + 1)

def natSeedEngine : Nat → Nat := fun s => 100 * s

/-- The concrete entropy source for the `randomSeed` evaluation: the first
32-bit draw is `0xFFFFFFFF`, later draws are `0`. -/
def devFF : Nat → Nat := fun t => if t = 0 then 4294967295 else 0

/-! ### Claim theorems -/

/-- C1: for worker count `N ≥ 1` and chunk size `C ≥ 1`, under any thread
schedule, the `k`-th `generate()` call (1-based `k`; 0-based `j = k - 1`)
returns the `(j % C)`-th value of chunk `j / C / N` of worker
`(j / C) % N`'s stream: the consumed sequence is the concatenation of
`C`-sized chunks taken from the workers in strict round-robin order,
never interleaved at sub-chunk granularity, reordered, duplicated or
dropped. -/
theorem generate_round_robin {σ δ α Sd : Type} (C : Nat) (dflt : α)
    (step : δ → σ → α × δ × σ) (engNext : σ → Sd × σ) (seedEngine : Sd → σ)
    (d : δ) (seed : Sd) (N : Nat) (sched : Nat → List Nat) (k : Nat)
    (hC : 1 ≤ C) (hN : 1 ≤ N) :
    RngCache.outputs step sched 0 k
        (RngCache.init C dflt engNext seedEngine d seed N) =
      Except.ok ((List.range k).map (fun j =>
        workerNth step engNext seedEngine d seed (j / C % N) (j / C / N * C + j % C))) := by
  rw [outputs_init dflt hC hN sched k]
  rfl

/-- Witness for C1 at `C = 2`, `N = 2`, `k = 5`, seed `0`. -/
theorem generate_round_robin_witness :
    (1 : Nat) ≤ 2 ∧
    RngCache.outputs natStep (fun t => [t % 2]) 0 5
        (RngCache.init 2 0 natEngNext natSeedEngine () 0 2) =
      Except.ok ((List.range 5).map (fun j =>
        workerNth natStep natEngNext natSeedEngine () 0 (j / 2 % 2) (j / 2 / 2 * 2 + j % 2))) :=
  ⟨by decide, generate_round_robin 2 0 natStep natEngNext natSeedEngine () 0 2
    (fun t => [t % 2]) 5 (by decide) (by decide)⟩

/-- C2: the values worker `i` contributes to the consumed output, taken in
emission order, are exactly the successive draws of
`distribution(engine)` from a fresh engine seeded with worker `i`'s derived
sub-seed — no draw skipped, none repeated. -/
theorem worker_contribution_exact {σ δ α Sd : Type} (C : Nat) (dflt : α)
    (step : δ → σ → α × δ × σ) (engNext : σ → Sd × σ) (seedEngine : Sd → σ)
    (d : δ) (seed : Sd) (N i : Nat) (sched : Nat → List Nat) (k : Nat) (vs : List α)
    (hC : 1 ≤ C) (hN : 1 ≤ N) (hi : i < N)
    (hout : RngCache.outputs step sched 0 k
      (RngCache.init C dflt engNext seedEngine d seed N) = Except.ok vs) :
    ((List.range k).filter (fun j => j / C % N == i)).map (fun j => vs.getD j dflt) =
      (List.range (((List.range k).filter (fun j => j / C % N == i)).length)).map
        (workerNth step engNext seedEngine d seed i) := by
  have hvs : vs = (List.range k).map (idealVal C step engNext seedEngine d seed N) := by
    rw [outputs_init dflt hC hN sched k] at hout
    exact (Except.ok.inj hout).symm
  subst hvs
  have hmap : ∀ j ∈ (List.range k).filter (fun j => j / C % N == i),
      ((List.range k).map (idealVal C step engNext seedEngine d seed N)).getD j dflt =
        idealVal C step engNext seedEngine d seed N j := by
    intro j hj
    have hjk : j < k := List.mem_range.mp (List.mem_filter.mp hj).1
    exact getD_map_range _ _ hjk
  rw [List.map_congr_left hmap]
  exact contrib_map step engNext seedEngine d seed hC hN hi k

/-- Witness for C2: worker 1 of 2, first 5 outputs. -/
theorem worker_contribution_exact_witness :
    ((List.range 5).filter (fun j => j / 2 % 2 == 1)).map
        (fun j => ([0, 1, 100, 101, 2] : List Nat).getD j 0) =
      (List.range (((List.range 5).filter (fun j => j / 2 % 2 == 1)).length)).map
        (workerNth natStep natEngNext natSeedEngine () 0 1) :=
  worker_contribution_exact 2 0 natStep natEngNext natSeedEngine () 0 2 1
    (fun t => [t % 2]) 5 [0, 1, 100, 101, 2] (by decide) (by decide) (by decide) (by rfl)

/-- C3: two caches constructed with identical parameters return identical
value sequences over any number of `generate()` calls, for ANY two thread
schedules — the output is deterministic and independent of scheduling. -/
theorem outputs_deterministic {σ δ α Sd : Type} (C : Nat) (dflt : α)
    (step : δ → σ → α × δ × σ) (engNext : σ → Sd × σ) (seedEngine : Sd → σ)
    (d : δ) (seed : Sd) (N : Nat) (sched₁ sched₂ : Nat → List Nat) (k : Nat) :
    RngCache.outputs step sched₁ 0 k
        (RngCache.init C dflt engNext seedEngine d seed N) =
      RngCache.outputs step sched₂ 0 k
        (RngCache.init C dflt engNext seedEngine d seed N) := by
  have h := consumeN_congr step sched₁ sched₂ k 0 0
    (RngCache.init C dflt engNext seedEngine d seed N)
    (RngCache.init C dflt engNext seedEngine d seed N) rfl
  rw [RngCache.outputs, RngCache.outputs]
  cases h1 : RngCache.consumeN step sched₁ 0 k
      (RngCache.init C dflt engNext seedEngine d seed N) with
  | error e =>
    cases h2 : RngCache.consumeN step sched₂ 0 k
        (RngCache.init C dflt engNext seedEngine d seed N) with
    | error e₂ =>
      rw [h1, h2] at h
      simp only [Except.map, Except.error.injEq] at h
      simp [Except.map, h]
    | ok u => rw [h1, h2] at h; simp [Except.map] at h
  | ok u =>
    cases h2 : RngCache.consumeN step sched₂ 0 k
        (RngCache.init C dflt engNext seedEngine d seed N) with
    | error e₂ => rw [h1, h2] at h; simp [Except.map] at h
    | ok u₂ =>
      rw [h1, h2] at h
      simp only [Except.map, Except.ok.injEq, Prod.mk.injEq] at h
      simp [Except.map, h.1]

/-- C4: the `i`-th Worker (in construction order) is created non-shut-down,
with an exhausted chunk, a copy of the distribution, and an engine seeded
with exactly the `i`-th sequential draw from the root engine built from the
root seed. -/
theorem create_subseeds {σ δ α Sd : Type} (C : Nat) (dflt : α)
    (engNext : σ → Sd × σ) (seedEngine : Sd → σ) (d : δ) (seed : Sd)
    (n i : Nat) (hi : i < n) :
    (Producer.create C dflt engNext seedEngine d seed n : List (Producer σ δ α))[i]? =
      some { shutdown := false
             chunk := Chunk.init C dflt
             dist := d
             engine := seedEngine (childSeed engNext (seedEngine seed) i) } := by
  rw [Producer.create]
  exact createAux_getElem? C dflt engNext seedEngine d n (seedEngine seed) i hi

/-- Witness for C4: the third of three workers receives the third root draw. -/
theorem create_subseeds_witness :
    (Producer.create 2 0 natEngNext natSeedEngine () 0 3 :
      List (Producer Nat Unit Nat))[2]? =
      some { shutdown := false
             chunk := Chunk.init 2 0
             dist := ()
             engine := natSeedEngine (childSeed natEngNext (natSeedEngine 0) 2) } :=
  create_subseeds 2 0 natEngNext natSeedEngine () 0 3 2 (by decide)

/-- C5: evaluation of `randomSeed` at a 64-bit seed type and a 32-bit entropy
source. The code computes `(0xFFFFFFFF << 4) | 0 = 0xFFFFFFFF0` because it
shifts by `sizeof` in BYTES (4); the spec's bit-width concatenation
(`randomSeedSpec`, shifting by 32 bits) yields `0xFFFFFFFF00000000`. The two
disagree: bits 36–63 of the produced seed are never filled with entropy. -/
theorem randomSeed_byte_shift_bug :
    randomSeed 8 4 devFF = 68719476720 ∧
      randomSeedSpec 8 4 devFF = 18446744069414584320 ∧
      ¬randomSeed 8 4 devFF = randomSeedSpec 8 4 devFF := by
  refine ⟨by decide, by decide, by decide⟩

/-- C6 counterexample: with `workerCount` omitted and a hardware-parallelism
query reporting zero, construction yields an EMPTY worker pool, not a pool of
one worker — nothing is rejected or coerced to 1. -/
theorem workerCount_zero_pool_empty :
    (RngCache.initOpt 2 0 natEngNext natSeedEngine () none 0 none 0 :
      RngCache Nat Unit Nat).producers.length = 0 ∧
    ¬(RngCache.initOpt 2 0 natEngNext natSeedEngine () none 0 none 0 :
      RngCache Nat Unit Nat).producers.length = 1 := by
  refine ⟨rfl, by decide⟩

/-- C6 amended: construction passes the worker count through unvalidated —
the pool size is exactly `threadCount.getD hw` — and when the resulting count
is zero the first `generate()` dereferences an element of an empty producer
vector (undefined behaviour, modelled as an error) instead of using one
worker. -/
theorem workerCount_passthrough {σ δ α Sd : Type} (C : Nat) (dflt : α)
    (step : δ → σ → α × δ × σ) (engNext : σ → Sd × σ) (seedEngine : Sd → σ)
    (d : δ) (seed? : Option Sd) (entropySeed : Sd) (threadCount? : Option Nat)
    (hw : Nat) :
    (RngCache.initOpt C dflt engNext seedEngine d seed? entropySeed threadCount? hw :
      RngCache σ δ α).producers.length = threadCount?.getD hw ∧
    RngCache.generate step
        (RngCache.initOpt C dflt engNext seedEngine d seed? entropySeed none 0) =
      Except.error "undefined behaviour: empty producer pool" := by
  constructor
  · show (Producer.create C dflt engNext seedEngine d (seed?.getD entropySeed)
      (threadCount?.getD hw) : List (Producer σ δ α)).length = threadCount?.getD hw
    rw [Producer.create, createAux_length]
  · have hemp : (RngCache.initOpt C dflt engNext seedEngine d seed? entropySeed
        none 0 : RngCache σ δ α).activeChunk.empty = true := by
      show (Chunk.init C dflt : Chunk α).empty = true
      simp [Chunk.init, Chunk.empty]
    refine generate_eq_nopool step _ hemp ?_
    rfl

/-- C7: under the released wait condition, `swapChunk` throws the
"Illegal access of closed instance" error if and only if shutdown was
observed; on the error path both the producer state and the caller's chunk
are left untouched; on success the chunks are exchanged — the caller
receives the producer's (full) chunk and the producer receives the
caller's chunk. -/
theorem swapChunk_spec {σ δ α : Type} (p : Producer σ δ α) (other : Chunk α)
    (h : p.swapWaitCondition = true) :
    ((p.swapChunk other).1 = Except.error illegalAccessMsg ↔ p.shutdown = true) ∧
    (p.shutdown = true →
      (p.swapChunk other).2.1 = p ∧ (p.swapChunk other).2.2 = other) ∧
    (p.shutdown = false →
      (p.swapChunk other).1 = Except.ok () ∧
      (p.swapChunk other).2.1 = { p with chunk := other } ∧
      (p.swapChunk other).2.2 = p.chunk ∧
      (p.swapChunk other).2.2.full = true) := by
  by_cases hs : p.shutdown
  · refine ⟨by simp [Producer.swapChunk, hs], fun _ => ?_, fun hcon => ?_⟩
    · constructor <;> simp [Producer.swapChunk, hs]
    · rw [hs] at hcon
      cases hcon
  · have hfull : p.chunk.full = true := by
      rw [Producer.swapWaitCondition] at h
      simpa [hs] using h
    refine ⟨by simp [Producer.swapChunk, hs], fun hcon => ?_, fun _ => ?_⟩
    · rw [hcon] at hs
      cases hs rfl
    · refine ⟨by simp [Producer.swapChunk, hs], by simp [Producer.swapChunk, hs],
        by simp [Producer.swapChunk, hs], ?_⟩
      rw [show (p.swapChunk other).2.2 = p.chunk by simp [Producer.swapChunk, hs]]
      exact hfull

/-- Witness for C7: a live producer with a full chunk. -/
theorem swapChunk_spec_witness :
    ((⟨false, ⟨0, [5]⟩, (), 7⟩ : Producer Nat Unit Nat).swapWaitCondition = true) ∧
    (((⟨false, ⟨0, [5]⟩, (), 7⟩ : Producer Nat Unit Nat).swapChunk ⟨1, [9]⟩).1 =
        Except.error illegalAccessMsg ↔
      (⟨false, ⟨0, [5]⟩, (), 7⟩ : Producer Nat Unit Nat).shutdown = true) :=
  ⟨by decide, (swapChunk_spec (⟨false, ⟨0, [5]⟩, (), 7⟩ : Producer Nat Unit Nat)
    ⟨1, [9]⟩ (by decide)).1⟩

/-- C8: `fill` draws once per slot in index order (the resulting contents are
the successive generator outputs and the final generator state has advanced by
exactly the capacity), resets the cursor to 0, after which `full()` is true
and `empty()` is false (capacity ≥ 1), and exactly capacity-many `next()`
calls reach `empty() = true`. -/
theorem fill_spec {α St : Type} (c : Chunk α) (gen : St → α × St) (s : St)
    (hcap : 1 ≤ c.values.length) :
    (c.fill gen s).1.values = (List.range c.values.length).map (nthOut gen s) ∧
    (c.fill gen s).2 = iterState gen s c.values.length ∧
    (c.fill gen s).1.nextIndex = 0 ∧
    (c.fill gen s).1.full = true ∧
    (c.fill gen s).1.empty = false ∧
    ∃ vs rest, (c.fill gen s).1.nextN c.values.length = some (vs, rest) ∧
      vs = (c.fill gen s).1.values ∧ rest.empty = true := by
  have hlen : (genList gen c.values.length s).1.length = c.values.length :=
    genList_length gen c.values.length s
  refine ⟨?_, ?_, rfl, rfl, ?_, ?_⟩
  · show (genList gen c.values.length s).1 = _
    rw [genList_eq]
  · show (genList gen c.values.length s).2 = _
    rw [genList_eq]
  · show (0 == (genList gen c.values.length s).1.length) = false
    rw [hlen]
    simp only [beq_eq_false_iff_ne, ne_eq]
    omega
  · have hle : 0 + c.values.length ≤ (genList gen c.values.length s).1.length := by
      rw [hlen]
      omega
    have hnn := Chunk.nextN_of_le c.values.length 0 (genList gen c.values.length s).1 hle
    rw [List.drop_zero] at hnn
    have htake : ((genList gen c.values.length s).1).take c.values.length =
        (genList gen c.values.length s).1 := by
      have ht := List.take_length (genList gen c.values.length s).1
      rw [hlen] at ht
      exact ht
    rw [htake] at hnn
    refine ⟨(genList gen c.values.length s).1,
      ⟨0 + c.values.length, (genList gen c.values.length s).1⟩, hnn, rfl, ?_⟩
    show ((0 + c.values.length) == (genList gen c.values.length s).1.length) = true
    rw [hlen]
    simp

/-- Witness for C8: a capacity-2 chunk refilled by a counter generator. -/
theorem fill_spec_witness :
    (1 : Nat) ≤ ((⟨2, [3, 4]⟩ : Chunk Nat)).values.length ∧
    ((⟨2, [3, 4]⟩ : Chunk Nat).fill (fun n => (n, n + 1)) 10).1.values =
      (List.range ((⟨2, [3, 4]⟩ : Chunk Nat)).values.length).map
        (nthOut (fun n => (n, n + 1)) 10) :=
  ⟨by decide, (fill_spec (⟨2, [3, 4]⟩ : Chunk Nat) (fun n => (n, n + 1)) 10
    (by decide)).1⟩

/-- C9: when the cursor is strictly below capacity the chunk is not empty,
`next()` returns the value at the cursor and advances the cursor by exactly
one, the access is in bounds, and the cursor stays within `[0, capacity]`;
the empty case is outside this precondition (it is the assertion/UB case,
modelled as `none`). -/
theorem next_spec {α : Type} (c : Chunk α) (h : c.nextIndex < c.values.length) :
    c.empty = false ∧
    c.next = some (c.values.get ⟨c.nextIndex, h⟩,
      { c with nextIndex := c.nextIndex + 1 }) ∧
    c.nextIndex + 1 ≤ c.values.length := by
  refine ⟨?_, ?_, by omega⟩
  · simp only [Chunk.empty, beq_eq_false_iff_ne, ne_eq]
    omega
  · rw [Chunk.next, dif_pos h]
    rfl

/-- Witness for C9: a fresh two-slot chunk at cursor 0. -/
theorem next_spec_witness :
    (⟨0, [7, 8]⟩ : Chunk Nat).nextIndex < (⟨0, [7, 8]⟩ : Chunk Nat).values.length ∧
    (⟨0, [7, 8]⟩ : Chunk Nat).empty = false :=
  ⟨by decide, (next_spec (⟨0, [7, 8]⟩ : Chunk Nat) (by decide)).1⟩

/-- C10: a successful `swapChunk` changes, on the producer's side, only the
chunk field (which becomes the caller's chunk): the engine state, the
private distribution copy and the shutdown flag are identical before and
after the call, so the hand-off consumes no random draws. -/
theorem swapChunk_frame {σ δ α : Type} (p : Producer σ δ α) (other : Chunk α)
    (h : (p.swapChunk other).1 = Except.ok ()) :
    (p.swapChunk other).2.1.shutdown = p.shutdown ∧
    (p.swapChunk other).2.1.dist = p.dist ∧
    (p.swapChunk other).2.1.engine = p.engine ∧
    (p.swapChunk other).2.1.chunk = other ∧
    (p.swapChunk other).2.2 = p.chunk := by
  by_cases hs : p.shutdown
  · simp [Producer.swapChunk, hs] at h
  · refine ⟨?_, ?_, ?_, ?_, ?_⟩ <;> simp [Producer.swapChunk, hs]

/-- Witness for C10. -/
theorem swapChunk_frame_witness :
    (((⟨false, ⟨0, [5]⟩, (), 7⟩ : Producer Nat Unit Nat).swapChunk ⟨1, [9]⟩).1 =
      Except.ok ()) ∧
    ((⟨false, ⟨0, [5]⟩, (), 7⟩ : Producer Nat Unit Nat).swapChunk ⟨1, [9]⟩).2.1.engine =
      (⟨false, ⟨0, [5]⟩, (), 7⟩ : Producer Nat Unit Nat).engine :=
  ⟨by rfl, (swapChunk_frame (⟨false, ⟨0, [5]⟩, (), 7⟩ : Producer Nat Unit Nat)
    ⟨1, [9]⟩ (by rfl)).2.2.1⟩

end ThreadedRngCache
